import Mathlib

/-!
Verification of the object-storage client library (Rust sources:
src/oss.rs, src/object.rs, src/utils.rs, src/errors.rs) against its
natural-language specification.

Shallow embedding conventions:
* `HashMap`s are represented by their entry lists; statements about
  hash-map inputs quantify over permutations of the entry list (the
  iteration order of a Rust `HashMap` is arbitrary) together with a
  `Nodup` hypothesis on the keys (hash-map keys are unique).
* Rust `String`s are Lean `String`s; byte-wise lexicographic comparison
  of UTF-8 strings coincides with code-point lexicographic comparison,
  which is the order of Lean's `String` `LinearOrder`.
* Fallible Rust code returning `Result<_, Error>` is embedded as
  `Except`/`Option`; a Rust `panic!`/`.expect` is a distinguished
  `panicked` outcome, distinct from every typed error.
* The streaming XML reader (external crate `quick_xml`) is embedded at
  the event level: the decoded response body is a list of reader items,
  each either an XML event (start tag / end tag / text) or a
  reader-level error (`ReadItem.fail`, the `Err` result of
  `read_event` on malformed XML); end of input is the end of the list.
-/

namespace OssSdk

/-- The fixed sub-resource allow-list, copied verbatim (including the
duplicated `comp` entry) from `RESOURCES` in src/oss.rs lines 23-75. -/
def RESOURCES : List String :=
  ["acl", "uploads", "location", "cors", "logging", "website", "referer",
   "lifecycle", "delete", "append", "tagging", "objectMeta", "uploadId",
   "partNumber", "security-token", "position", "img", "style", "styleName",
   "replication", "replicationProgress", "replicationLocation", "cname",
   "bucketInfo", "comp", "qos", "live", "status", "vod", "startTime",
   "endTime", "symlink", "x-oss-process", "response-content-type",
   "response-content-language", "response-expires", "response-cache-control",
   "response-content-disposition", "response-content-encoding", "udf",
   "udfName", "udfImage", "udfId", "udfImageDesc", "udfApplication", "comp",
   "udfApplicationLog", "restore", "callback", "callback-var",
   "continuation-token"]

/-- The string a single parameter entry contributes: `name=value` for a
parameter with a value, bare `name` otherwise (src/oss.rs lines 174-178). -/
def entryStr (p : String × Option String) : String :=
  match p.2 with
  | some vv => p.1 ++ "=" ++ vv
  | none => p.1

/-- Strict lexicographic comparison of character lists by code point.
On UTF-8 data this coincides with Rust's byte-wise `str` ordering
(`a.cmp(b)`), because UTF-8 byte order preserves code-point order. -/
def charsLt : List Char → List Char → Bool
  | [], [] => false
  | [], _ :: _ => true
  | _ :: _, [] => false
  | a :: as, b :: bs => if a < b then true else if b < a then false else charsLt as bs

/-- Reflexive lexicographic comparison of character lists. -/
def charsLe : List Char → List Char → Bool
  | [], _ => true
  | _ :: _, [] => false
  | a :: as, b :: bs => if a < b then true else if b < a then false else charsLe as bs

/-- Boolean test that `pat` is a prefix of `s` (Rust `str::starts_with`). -/
def strStartsWith (s pat : String) : Bool := pat.data.isPrefixOf s.data

/-- Comparison used by `resources.sort_by` in src/oss.rs line 168:
order entries by their parameter name (byte-wise string comparison). -/
def keyLe (a b : String × Option String) : Prop := charsLe a.1.data b.1.data = true

/-- Strict version of `keyLe`; distinct keys sorted by `keyLe` are in
fact strictly increasing. -/
def keyLt (a b : String × Option String) : Prop := charsLt a.1.data b.1.data = true

instance : DecidableRel keyLe := fun _ _ => inferInstanceAs (Decidable (_ = true))

instance : DecidableRel keyLt := fun _ _ => inferInstanceAs (Decidable (_ = true))

/-- Embedding of `OSS::get_params_str` (src/oss.rs lines 160-181): keep
only allow-listed parameter names, sort by name, then fold the entries
together with `&` separators exactly as the Rust loop does. -/
def get_params_str (params : List (String × Option String)) : String :=
  let resources := params.filter (fun p => RESOURCES.contains p.1)
  let sorted := List.insertionSort keyLe resources
  sorted.foldl
    (fun result p =>
      (if result.isEmpty then result else result ++ "&") ++ entryStr p)
    ""

/-- Embedding of `OSS::get_resources_str` (src/oss.rs lines 202-223);
its body is a verbatim copy of `get_params_str`. -/
def get_resources_str (params : List (String × Option String)) : String :=
  let resources := params.filter (fun p => RESOURCES.contains p.1)
  let sorted := List.insertionSort keyLe resources
  sorted.foldl
    (fun result p =>
      (if result.isEmpty then result else result ++ "&") ++ entryStr p)
    ""

/-- Replace the first occurrence of `pat` in a character list
(Rust `str::replacen(pat, sub, 1)` as used in src/oss.rs lines 116, 124). -/
def replaceFirst (s pat sub : List Char) : List Char :=
  match s with
  | [] => []
  | c :: rest =>
    if pat.isPrefixOf (c :: rest) then sub ++ (c :: rest).drop pat.length
    else c :: replaceFirst rest pat sub

/-- String form of `replaceFirst`. -/
def replacen1 (s pat sub : String) : String :=
  ⟨replaceFirst s.data pat.data sub.data⟩

/-- Embedding of `OSS::host` (src/oss.rs lines 111-129): virtual-hosted
URL of the form `scheme://bucket.host/object?resources_str`. -/
def host (endpoint bucket object resources_str : String) : String :=
  if strStartsWith endpoint "https" then
    "https://" ++ bucket ++ "." ++ replacen1 endpoint "https://" "" ++ "/" ++
      object ++ "?" ++ resources_str
  else
    "http://" ++ bucket ++ "." ++ replacen1 endpoint "http://" "" ++ "/" ++
      object ++ "?" ++ resources_str

/-- The scheme/authority/path portion of `host`, i.e. everything before
the `?` that introduces the query string. -/
def urlBase (endpoint bucket object : String) : String :=
  if strStartsWith endpoint "https" then
    "https://" ++ bucket ++ "." ++ replacen1 endpoint "https://" "" ++ "/" ++ object
  else
    "http://" ++ bucket ++ "." ++ replacen1 endpoint "http://" "" ++ "/" ++ object

/-- The pure request-assembly core of `get_as_buffer`
(src/object.rs lines 243-262) and of `put` via `PutOptions`
(src/object.rs lines 147-150, 284-304): the filtered canonical string is
computed once and used both as the URL query string (argument to `host`)
and as the `oss_resources` argument handed to the signer.  Returns
`(url, canonical_resource_string_passed_to_the_signer)`. -/
def get_request (endpoint bucket object : String)
    (params : Option (List (String × Option String))) : String × String :=
  let params_string :=
    match params with
    | some r => get_resources_str r
    | none => ""
  (host endpoint bucket object params_string, params_string)

/-- ASCII lower-casing of a string (Rust/http-crate header-name
normalization lower-cases ASCII letters only, as does `Char.toLower`). -/
def lowerStr (s : String) : String := ⟨s.data.map Char.toLower⟩

/-- Modelled from the spec: `HeaderCanonicalizer` merging rule (§4.2).
Headers with the same name have their values comma-joined in source
order.  The implementation file src/auth.rs is not among the sources. -/
def mergeHeaders (hs : List (String × String)) : List (String × String) :=
  hs.foldl
    (fun acc p =>
      if acc.any (fun q => q.1 = p.1) then
        acc.map (fun q => if q.1 = p.1 then (q.1, q.2 ++ "," ++ p.2) else q)
      else acc ++ [p])
    []

/-- Ordering of canonicalized headers by (lower-cased) name. -/
def hdrLe (a b : String × String) : Prop := charsLe a.1.data b.1.data = true

instance : DecidableRel hdrLe := fun _ _ => inferInstanceAs (Decidable (_ = true))

/-- Modelled from the spec: `HeaderCanonicalizer` (§4.2) — select the
provider-prefixed headers (case-insensitively), lower-case the names,
merge duplicates, sort by name, and join each entry as `name:value\n`.
The implementation file src/auth.rs is not among the sources. -/
def canonicalizedHeaders (headers : List (String × String)) : String :=
  let selected := (headers.map (fun p => (lowerStr p.1, p.2))).filter
    (fun p => strStartsWith p.1 "x-oss-")
  let merged := mergeHeaders selected
  let sorted := List.insertionSort hdrLe merged
  sorted.foldl (fun acc p => acc ++ p.1 ++ ":" ++ p.2 ++ "\n") ""

/-- Modelled from the spec: the `Signer` string-to-sign (§4.3), built
exactly as the spec's algorithm block prescribes.  The implementation
file src/auth.rs is not among the sources. -/
def string_to_sign (verb content_md5 content_type date : String)
    (headers : List (String × String)) (bucket object canonical_resource : String) :
    String :=
  verb ++ "\n" ++ content_md5 ++ "\n" ++ content_type ++ "\n" ++ date ++ "\n" ++
    canonicalizedHeaders headers ++ "/" ++ bucket ++ "/" ++ object ++
    (if canonical_resource = "" then "" else "?" ++ canonical_resource)

/-- An XML event delivered by the streaming reader. -/
inductive XmlEvent where
  | start (name : String)
  | close (name : String)
  | text (s : String)
deriving DecidableEq, Repr

/-- One result of `reader.read_event`: either an event or a reader-level
error (`Err`, produced on malformed XML).  End of input (`Event::Eof`)
is represented by the end of the item list. -/
inductive ReadItem where
  | ev (e : XmlEvent)
  | fail
deriving DecidableEq, Repr

/-- Typed decode errors: the `Error` values the decoding code can return
through `?` (quick_xml errors and `str::parse::<bool>` failure). -/
inductive DecodeErr where
  | unexpectedEof
  | textNotFound
  | readerErr
  | parseBool (s : String)
deriving DecidableEq, Repr

/-- Outcome of running a decoding loop: a normal return, a typed error
returned to the caller, or a `panic!`. -/
inductive Outcome (α : Type) where
  | ok (a : α)
  | err (e : DecodeErr)
  | panicked
deriving DecidableEq, Repr

/-- Embedding of quick_xml `Reader::read_to_end`: skip events until the
end tag matching `name` at this nesting depth; end of input while the
tag is open is a typed `UnexpectedEof` error. -/
def readToEnd (name : String) (depth : Nat) : List ReadItem → Except DecodeErr (List ReadItem)
  | [] => .error .unexpectedEof
  | .fail :: _ => .error .readerErr
  | .ev (.start n) :: rest =>
    if n = name then readToEnd name (depth + 1) rest else readToEnd name depth rest
  | .ev (.close n) :: rest =>
    if n = name then
      match depth with
      | 0 => .ok rest
      | d + 1 => readToEnd name d rest
    else readToEnd name depth rest
  | .ev (.text _) :: rest => readToEnd name depth rest

/-- Embedding of quick_xml `Reader::read_text`: return the text content
up to the end tag matching `name`.  An immediate matching end tag yields
the empty string; end of input is a typed `UnexpectedEof`; any other
event is a typed `TextNotFound`; a reader error propagates. -/
def readText (name : String) : List ReadItem → Except DecodeErr (String × List ReadItem)
  | [] => .error .unexpectedEof
  | .fail :: _ => .error .readerErr
  | .ev (.text s) :: rest => (readToEnd name 0 rest).map (fun r => (s, r))
  | .ev (.close n) :: rest => if n = name then .ok ("", rest) else .error .textNotFound
  | .ev (.start _) :: _ => .error .textNotFound

/-- Rust `str::parse::<bool>()`: accepts exactly `true` and `false`. -/
def parseBoolRust (s : String) : Except DecodeErr Bool :=
  if s = "true" then .ok true
  else if s = "false" then .ok false
  else .error (.parseBool s)

/-- Embedding of `DetailObjects` (src/object.rs lines 54-60); `Default`
gives empty strings. -/
structure DetailObjects where
  key : String := ""
  last_modified : String := ""
  e_tag : String := ""
  size : String := ""
deriving DecidableEq, Repr, Inhabited

/-- Embedding of `ListDetailsResponse` (src/object.rs lines 46-52). -/
structure ListDetailsResponse where
  is_truncated : Bool := false
  objects : List DetailObjects := []
  prefixes : List String := []
  next_marker : String := ""
deriving DecidableEq, Repr, Inhabited

/-- The nested `CommonPrefixes` loop of `list_details`
(src/object.rs lines 494-515): `PreFix` start tags contribute their text
to the result's `prefixes`; the matching `CommonPrefixes` end tag breaks
back to the outer loop; every other reader result — text events, end of
input, reader errors — hits the catch-all `panic!` arm.  The fuel
argument bounds the iteration count; every call made by the decoders
supplies more fuel than there are remaining items, so the fuel-exhausted
branch is unreachable. -/
def cpLoop : Nat → List ReadItem → List String → Outcome (List String × List ReadItem)
  | 0, _, _ => .panicked
  | _ + 1, [], _ => .panicked
  | _ + 1, .fail :: _, _ => .panicked
  | _ + 1, .ev (.text _) :: _, _ => .panicked
  | fuel + 1, .ev (.start n) :: rest, acc =>
    if n = "PreFix" then
      match readText "PreFix" rest with
      | .error e => .err e
      | .ok (s, rest') => cpLoop fuel rest' (acc ++ [s])
    else cpLoop fuel rest acc
  | fuel + 1, .ev (.close n) :: rest, acc =>
    if n = "CommonPrefixes" then .ok (acc, rest)
    else cpLoop fuel rest acc

/-- The main decode loop of `list_details` (src/object.rs lines 477-529).
`cur` is the `DetailObjects` accumulator, `res` the result under
construction.  End of input (`Event::Eof`) breaks with `Ok(res)`; a
reader error hits the `panic!` arm; recognized start tags read their
text content (typed errors propagate through `?`); the end tag
`Contents` appends `mem::take(&mut cur)`; all other events are ignored. -/
def ldLoop : Nat → List ReadItem → DetailObjects → ListDetailsResponse →
    Outcome ListDetailsResponse
  | 0, _, _, _ => .panicked
  | _ + 1, [], _, res => .ok res
  | _ + 1, .fail :: _, _, _ => .panicked
  | fuel + 1, .ev (.text _) :: rest, cur, res => ldLoop fuel rest cur res
  | fuel + 1, .ev (.close n) :: rest, cur, res =>
    if n = "Contents" then
      ldLoop fuel rest {} { res with objects := res.objects ++ [cur] }
    else ldLoop fuel rest cur res
  | fuel + 1, .ev (.start n) :: rest, cur, res =>
    if n = "Contents" then ldLoop fuel rest cur res
    else if n = "Key" then
      match readText "Key" rest with
      | .error e => .err e
      | .ok (s, rest') => ldLoop fuel rest' { cur with key := s } res
    else if n = "LastModified" then
      match readText "LastModified" rest with
      | .error e => .err e
      | .ok (s, rest') => ldLoop fuel rest' { cur with last_modified := s } res
    else if n = "ETag" then
      match readText "ETag" rest with
      | .error e => .err e
      | .ok (s, rest') => ldLoop fuel rest' { cur with e_tag := s } res
    else if n = "Size" then
      match readText "Size" rest with
      | .error e => .err e
      | .ok (s, rest') => ldLoop fuel rest' { cur with size := s } res
    else if n = "IsTruncated" then
      match readText "IsTruncated" rest with
      | .error e => .err e
      | .ok (s, rest') =>
        match parseBoolRust s with
        | .error e => .err e
        | .ok b => ldLoop fuel rest' cur { res with is_truncated := b }
    else if n = "NextContinuationToken" then
      match readText "NextContinuationToken" rest with
      | .error e => .err e
      | .ok (s, rest') => ldLoop fuel rest' cur { res with next_marker := s }
    else if n = "CommonPrefixes" then
      match cpLoop fuel rest res.prefixes with
      | .panicked => .panicked
      | .err e => .err e
      | .ok (ps, rest') => ldLoop fuel rest' cur { res with prefixes := ps }
    else ldLoop fuel rest cur res

/-- `ldLoop` with its canonical fuel (more fuel than items, so the
fuel-exhausted branch is unreachable). -/
def ldRun (items : List ReadItem) (cur : DetailObjects) (res : ListDetailsResponse) :
    Outcome ListDetailsResponse :=
  ldLoop (items.length + 1) items cur res

/-- Decoding part of `list_details` (src/object.rs lines 472-530),
applied to the event stream of the response body, starting from the
`Default` accumulator and result. -/
def list_details_decode (items : List ReadItem) : Outcome ListDetailsResponse :=
  ldRun items {} {}

/-- The decode loop of `list_objects` (src/object.rs lines 428-444):
`Key` start tags contribute their text; end of input breaks with the
collected keys; a reader error hits the `panic!` arm; everything else is
ignored. -/
def loLoop : Nat → List ReadItem → List String → Outcome (List String)
  | 0, _, _ => .panicked
  | _ + 1, [], acc => .ok acc
  | _ + 1, .fail :: _, _ => .panicked
  | fuel + 1, .ev (.start n) :: rest, acc =>
    if n = "Key" then
      match readText "Key" rest with
      | .error e => .err e
      | .ok (s, rest') => loLoop fuel rest' (acc ++ [s])
    else loLoop fuel rest acc
  | fuel + 1, .ev (.close _) :: rest, acc => loLoop fuel rest acc
  | fuel + 1, .ev (.text _) :: rest, acc => loLoop fuel rest acc

/-- Decoding part of `list_objects` (src/object.rs lines 428-444). -/
def list_objects_decode (items : List ReadItem) : Outcome (List String) :=
  loLoop (items.length + 1) items []

/-- Event serialization of a leaf element `<name>text</name>`. -/
def leafEv (nv : String × String) : List ReadItem :=
  [.ev (.start nv.1), .ev (.text nv.2), .ev (.close nv.1)]

/-- Event serialization of a list of leaf elements. -/
def leavesEvents : List (String × String) → List ReadItem
  | [] => []
  | nv :: rest => leafEv nv ++ leavesEvents rest

/-- A well-formed `Contents` block of a listing document: the four
recognized fields, in document order, surrounded by arbitrary
unrecognized leaf elements (`pre` before, `post` after). -/
structure ContentsBlock where
  pre : List (String × String)
  keyField : String
  lastModifiedField : String
  eTagField : String
  sizeField : String
  post : List (String × String)

/-- Event serialization of one `Contents` block. -/
def blockEvents (b : ContentsBlock) : List ReadItem :=
  [.ev (.start "Contents")] ++ leavesEvents b.pre ++
    leafEv ("Key", b.keyField) ++ leafEv ("LastModified", b.lastModifiedField) ++
    leafEv ("ETag", b.eTagField) ++ leafEv ("Size", b.sizeField) ++
    leavesEvents b.post ++ [.ev (.close "Contents")]

/-- Event serialization of a listing document as a list of `Contents`
blocks. -/
def blocksEvents : List ContentsBlock → List ReadItem
  | [] => []
  | b :: rest => blockEvents b ++ blocksEvents rest

/-- The `DetailObjects` entry a block should decode to. -/
def blockEntry (b : ContentsBlock) : DetailObjects :=
  { key := b.keyField, last_modified := b.lastModifiedField,
    e_tag := b.eTagField, size := b.sizeField }

/-- A tag name is unrecognized by the decoder: it is none of the names
the `list_details` loop dispatches on. -/
def goodName (n : String) : Prop :=
  n ∉ ["Contents", "Key", "LastModified", "ETag", "Size", "IsTruncated",
       "NextContinuationToken", "CommonPrefixes"]

instance (n : String) : Decidable (goodName n) :=
  inferInstanceAs (Decidable (¬ _))

/-- All extra leaves of a block carry unrecognized tag names. -/
def goodBlock (b : ContentsBlock) : Prop :=
  ∀ nv ∈ b.pre ++ b.post, goodName nv.1

instance (b : ContentsBlock) : Decidable (goodBlock b) :=
  inferInstanceAs (Decidable (∀ nv ∈ b.pre ++ b.post, goodName nv.1))

/-- Decidable equality for `Except`, needed to evaluate the embedded
fallible functions on concrete inputs. -/
instance {ε α : Type} [DecidableEq ε] [DecidableEq α] : DecidableEq (Except ε α) :=
  fun a b =>
    match a, b with
    | .ok x, .ok y =>
      if h : x = y then .isTrue (by simp [h]) else .isFalse (by simp [h])
    | .error e, .error f =>
      if h : e = f then .isTrue (by simp [h]) else .isFalse (by simp [h])
    | .ok _, .error _ => .isFalse (by simp)
    | .error _, .ok _ => .isFalse (by simp)

/-- The fixed metadata header name marker `OSS_META_PREFIX`
(src/utils.rs line 5). -/
def metaPfx : String := "x-oss-meta-"

/-- Valid bytes of an HTTP header name (external http crate,
`HeaderName::from_bytes`): ASCII letters and digits plus the token
characters; upper-case letters are accepted and normalized to lower
case. -/
def validNameChar (c : Char) : Bool :=
  c.isAlphanum ||
    ['!', '#', '$', '%', '&', '*', '+', '-', '.', '^', '_', '|', '~',
      Char.ofNat 39, Char.ofNat 96].contains c

/-- Valid header name: nonempty, all characters valid. -/
def validHeaderName (s : String) : Bool :=
  !s.data.isEmpty && s.data.all validNameChar

/-- Valid bytes of an HTTP header value (external http crate,
`HeaderValue::from_str`): visible ASCII, space and horizontal tab. -/
def validHeaderValue (s : String) : Bool :=
  s.data.all (fun c => (32 ≤ c.toNat && c.toNat ≤ 126) || c.toNat = 9)

/-- The normalized header name a metadata key is stored under:
`x-oss-meta-<key>`, lower-cased by `HeaderName::from_bytes`. -/
def metaName (k : String) : String := lowerStr (metaPfx ++ k)

/-- `HeaderMap::insert` on the association-list model of a header map:
replace the value stored under an existing name, else append the entry.
Names are already normalized (lower-cased) by the caller. -/
def hmInsert (m : List (String × String)) (k v : String) : List (String × String) :=
  if m.any (fun p => p.1 = k) then
    m.map (fun p => if p.1 = k then (k, v) else p)
  else m ++ [(k, v)]

/-- Auxiliary fold of `to_meta_headers`. -/
def tmhAux (acc : List (String × String)) :
    List (String × String) → Except Unit (List (String × String))
  | [] => .ok acc
  | (k, v) :: rest =>
    if validHeaderName (metaPfx ++ k) && validHeaderValue v then
      tmhAux (hmInsert acc (lowerStr (metaPfx ++ k)) v) rest
    else .error ()

/-- Embedding of `to_meta_headers` (src/utils.rs lines 7-24): build a
header map inserting each metadata entry under the name
`x-oss-meta-<key>`; header names are normalized to ASCII lower case by
`HeaderName::from_bytes`, which rejects invalid bytes (the error is
collapsed to `Unit` here).  The metadata `HashMap` is represented by its
entry list in iteration order. -/
def to_meta_headers (meta : List (String × String)) :
    Except Unit (List (String × String)) :=
  tmhAux [] meta

/-- Fueled core of `str::trim_start_matches(OSS_META_PREFIX)`: strip the
leading marker repeatedly for as long as it is present.  The fuel is the
length of the string, which bounds the number of strips. -/
def trimMetaAux : Nat → List Char → List Char
  | 0, l => l
  | fuel + 1, l =>
    if metaPfx.data.isPrefixOf l then trimMetaAux fuel (l.drop metaPfx.data.length)
    else l

/-- Rust `s.trim_start_matches("x-oss-meta-")` as used in `head`
(src/object.rs line 393). -/
def trimMeta (s : String) : String := ⟨trimMetaAux s.data.length s.data⟩

/-- The metadata extraction performed by `head` on the response headers
(src/object.rs lines 386-397): keep the headers whose name starts with
`x-oss-meta-`, strip that marker from the name, keep the value. -/
def head_meta_decode (headers : List (String × String)) : List (String × String) :=
  (headers.filter (fun p => strStartsWith p.1 metaPfx)).map
    (fun p => (trimMeta p.1, p.2))

/-- Embedding of `ObjectError` (src/errors.rs lines 76-88). -/
inductive ObjectError where
  | putError (msg : String)
  | getError (msg : String)
  | copyError (msg : String)
  | deleteError (msg : String)
  | headError (msg : String)
deriving DecidableEq, Repr

/-- `StatusCode::is_success`: 2xx. -/
def is_success (status : Nat) : Bool := 200 ≤ status && status < 300

/-- The numeric part of the `Display` rendering of a status code (the
Rust `Display` also appends the canonical reason phrase, e.g.
`404 Not Found`; only the numeric part matters to the claims). -/
def statusDisplay (status : Nat) : String := toString status

/-- Error classification of `get_as_buffer` (src/object.rs lines
268-275): `None` on success, otherwise the `GetError` built there. -/
def get_result (status : Nat) : Option ObjectError :=
  if is_success status then none
  else some (.getError ("can not get object, status code: " ++ statusDisplay status))

/-- Error classification of `put` (src/object.rs lines 314-320). -/
def put_result (status : Nat) : Option ObjectError :=
  if is_success status then none
  else some (.putError ("can not put object, status code: " ++ statusDisplay status))

/-- Error classification of `del` (src/object.rs lines 346-352). -/
def del_result (status : Nat) : Option ObjectError :=
  if is_success status then none
  else some (.deleteError ("can not delete object, status code: " ++ statusDisplay status))

/-- Error classification of `head` (src/object.rs lines 398-402),
exactly as written there: the non-success arm builds
`ObjectError::DeleteError` with the delete message. -/
def head_result (status : Nat) : Option ObjectError :=
  if is_success status then none
  else some (.deleteError ("can not delete object, status code: " ++ statusDisplay status))

/-- Discriminator: is this classification result a `HeadError`? -/
def isHeadError : Option ObjectError → Bool
  | some (.headError _) => true
  | _ => false

/-- RFC 3629 UTF-8 validation/decoding of a byte sequence into code
points (Rust `String::from_utf8`), modelling the external standard
library conversion used by `Into<GetObjResponse>`
(src/object.rs line 162): rejects overlong forms, surrogates, and code
points beyond U+10FFFF. -/
def utf8Decode : List Nat → Option (List Nat)
  | [] => some []
  | b :: rest =>
    if b < 0x80 then (utf8Decode rest).map (fun cs => b :: cs)
    else if 0xC2 ≤ b ∧ b ≤ 0xDF then
      match rest with
      | c1 :: rest' =>
        if 0x80 ≤ c1 ∧ c1 ≤ 0xBF then
          (utf8Decode rest').map (fun cs => ((b - 0xC0) * 0x40 + (c1 - 0x80)) :: cs)
        else none
      | [] => none
    else if 0xE0 ≤ b ∧ b ≤ 0xEF then
      match rest with
      | c1 :: c2 :: rest' =>
        if ((if b = 0xE0 then 0xA0 else 0x80) ≤ c1 ∧
              c1 ≤ (if b = 0xED then 0x9F else 0xBF)) ∧
            (0x80 ≤ c2 ∧ c2 ≤ 0xBF) then
          (utf8Decode rest').map
            (fun cs => ((b - 0xE0) * 0x1000 + (c1 - 0x80) * 0x40 + (c2 - 0x80)) :: cs)
        else none
      | _ => none
    else if 0xF0 ≤ b ∧ b ≤ 0xF4 then
      match rest with
      | c1 :: c2 :: c3 :: rest' =>
        if ((if b = 0xF0 then 0x90 else 0x80) ≤ c1 ∧
              c1 ≤ (if b = 0xF4 then 0x8F else 0xBF)) ∧
            (0x80 ≤ c2 ∧ c2 ≤ 0xBF) ∧ (0x80 ≤ c3 ∧ c3 ≤ 0xBF) then
          (utf8Decode rest').map
            (fun cs =>
              ((b - 0xF0) * 0x40000 + (c1 - 0x80) * 0x1000 +
                (c2 - 0x80) * 0x40 + (c3 - 0x80)) :: cs)
        else none
      | _ => none
    else none

/-- Embedding of `GetBufferedObjResponse` (src/object.rs lines 39-44):
the body is raw bytes; headers are elided (no claim concerns them). -/
structure GetBufferedObjResponse where
  content : List Nat
  meta : List (String × String)
deriving DecidableEq, Repr

/-- Embedding of `GetObjResponse` (src/object.rs lines 12-17); the text
content is represented by its code points. -/
structure GetObjResponse where
  content : List Nat
  meta : List (String × String)
deriving DecidableEq, Repr

/-- Embedding of `Into<GetObjResponse> for GetBufferedObjResponse`
(src/object.rs lines 159-168): `String::from_utf8(..).expect(..)` —
a conversion failure is a `panic!`, not a typed error. -/
def intoGetObjResponse (r : GetBufferedObjResponse) : Outcome GetObjResponse :=
  match utf8Decode r.content with
  | some cs => .ok { content := cs, meta := r.meta }
  | none => .panicked

/-- Embedding of `del_multi` (src/object.rs lines 354-362) with the
per-object delete call abstracted by an oracle `del` giving the outcome
of `self.del(name)` for each name: iterate in order, propagating the
first error through `?`. -/
def del_multi {ε : Type} (del : String → Except ε Unit) : List String → Except ε Unit
  | [] => .ok ()
  | n :: rest =>
    match del n with
    | .error e => .error e
    | .ok _ => del_multi del rest

/-- The trace of names on which `del_multi` actually invokes `del`:
every name up to and including the first failing one. -/
def del_attempts {ε : Type} (del : String → Except ε Unit) : List String → List String
  | [] => []
  | n :: rest =>
    match del n with
    | .error _ => [n]
    | .ok _ => n :: del_attempts del rest

/-- Concrete delete oracle used to witness the `del_multi` theorem:
deleting `b` fails, everything else succeeds. -/
def delOracle : String → Except DecodeErr Unit :=
  fun n => if n = "b" then .error .readerErr else .ok ()

theorem strData_append (a b : String) : (a ++ b).data = a.data ++ b.data := by
  cases a; cases b; rfl

theorem strData_inj {a b : String} (h : a.data = b.data) : a = b := String.ext h

theorem str_ne_empty_iff {s : String} : s ≠ "" ↔ s.data ≠ [] := by
  constructor
  · intro h hd
    exact h (strData_inj hd)
  · intro h he
    exact h (he ▸ rfl)

theorem str_append_ne_left {a b : String} (h : a ≠ "") : a ++ b ≠ "" := by
  rw [str_ne_empty_iff, strData_append]
  intro hc
  exact (str_ne_empty_iff.mp h) (List.append_eq_nil.mp hc).1

theorem str_append_ne_right {a b : String} (h : b ≠ "") : a ++ b ≠ "" := by
  rw [str_ne_empty_iff, strData_append]
  intro hc
  exact (str_ne_empty_iff.mp h) (List.append_eq_nil.mp hc).2

theorem charsLe_total (a : List Char) : ∀ b, charsLe a b = true ∨ charsLe b a = true := by
  induction a with
  | nil => intro b; left; cases b <;> rfl
  | cons x as ih =>
    intro b
    cases b with
    | nil => right; rfl
    | cons y bs =>
      rcases lt_trichotomy x y with h | h | h
      · left; simp [charsLe, h]
      · subst h
        rcases ih bs with h' | h'
        · left; simpa [charsLe, lt_irrefl] using h'
        · right; simpa [charsLe, lt_irrefl] using h'
      · right; simp [charsLe, h]

theorem charsLe_trans : ∀ {a b c : List Char},
    charsLe a b = true → charsLe b c = true → charsLe a c = true := by
  intro a
  induction a with
  | nil => intro b c _ _; cases c <;> rfl
  | cons x as ih =>
    intro b c h1 h2
    cases b with
    | nil => simp [charsLe] at h1
    | cons y bs =>
      cases c with
      | nil => simp [charsLe] at h2
      | cons z cs =>
        by_cases hxy : x < y
        · by_cases hyz : y < z
          · simp [charsLe, lt_trans hxy hyz]
          · by_cases hzy : z < y
            · simp [charsLe, hyz, hzy] at h2
            · have : y = z := le_antisymm (not_lt.mp hzy) (not_lt.mp hyz)
              subst this
              simp [charsLe, hxy]
        · by_cases hyx : y < x
          · simp [charsLe, hxy, hyx] at h1
          · have : x = y := le_antisymm (not_lt.mp hyx) (not_lt.mp hxy)
            subst this
            by_cases hyz : x < z
            · simp [charsLe, hyz]
            · by_cases hzy : z < x
              · simp [charsLe, hyz, hzy] at h2
              · have : x = z := le_antisymm (not_lt.mp hzy) (not_lt.mp hyz)
                subst this
                simp [charsLe, lt_irrefl] at h1 h2 ⊢
                exact ih h1 h2

theorem charsLt_of_le_of_ne : ∀ {a b : List Char},
    charsLe a b = true → a ≠ b → charsLt a b = true := by
  intro a
  induction a with
  | nil =>
    intro b _ hne
    cases b with
    | nil => exact absurd rfl hne
    | cons y bs => rfl
  | cons x as ih =>
    intro b h1 hne
    cases b with
    | nil => simp [charsLe] at h1
    | cons y bs =>
      by_cases hxy : x < y
      · simp [charsLt, hxy]
      · by_cases hyx : y < x
        · simp [charsLe, hxy, hyx] at h1
        · have : x = y := le_antisymm (not_lt.mp hyx) (not_lt.mp hxy)
          subst this
          have hne' : as ≠ bs := by
            intro h; exact hne (by rw [h])
          have h1' : charsLe as bs = true := by
            simpa [charsLe, lt_irrefl] using h1
          simpa [charsLt, lt_irrefl] using ih h1' hne'

theorem charsLt_asymm : ∀ {a b : List Char},
    charsLt a b = true → charsLt b a = true → False := by
  intro a
  induction a with
  | nil =>
    intro b h1 h2
    cases b with
    | nil => simp [charsLt] at h1
    | cons y bs => simp [charsLt] at h2
  | cons x as ih =>
    intro b h1 h2
    cases b with
    | nil => simp [charsLt] at h1
    | cons y bs =>
      by_cases hxy : x < y
      · simp [charsLt, hxy, asymm hxy] at h2
      · by_cases hyx : y < x
        · simp [charsLt, hxy, hyx] at h1
        · have : x = y := le_antisymm (not_lt.mp hyx) (not_lt.mp hxy)
          subst this
          simp [charsLt, lt_irrefl] at h1 h2
          exact ih h1 h2

instance : IsTotal (String × Option String) keyLe :=
  ⟨fun a b => charsLe_total a.1.data b.1.data⟩

instance : IsTrans (String × Option String) keyLe :=
  ⟨fun _ _ _ h1 h2 => charsLe_trans h1 h2⟩

instance : IsAntisymm (String × Option String) keyLt :=
  ⟨fun _ _ h1 h2 => (charsLt_asymm h1 h2).elim⟩

theorem keyLt_of_keyLe_of_ne {a b : String × Option String}
    (h : keyLe a b) (hne : a.1 ≠ b.1) : keyLt a b :=
  charsLt_of_le_of_ne h (fun hd => hne (strData_inj hd))

theorem entryStr_ne_empty {p : String × Option String} (h : p.1 ≠ "") :
    entryStr p ≠ "" := by
  rcases p with ⟨k, v⟩
  cases v with
  | none => exact h
  | some vv =>
    rw [str_ne_empty_iff, entryStr, strData_append, strData_append]
    simp

theorem resources_key_ne_empty {s : String} (h : s ∈ RESOURCES) : s ≠ "" := by
  have : ∀ r ∈ RESOURCES, r ≠ "" := by decide
  exact this s h

theorem foldAmp_go (xs : List String) : ∀ acc, acc ≠ "" →
    xs.foldl (fun result x => (if result.isEmpty then result else result ++ "&") ++ x) acc =
      String.intercalate.go acc "&" xs := by
  induction xs with
  | nil =>
    intro acc _
    simp [String.intercalate.go]
  | cons x xs ih =>
    intro acc hacc
    have hie : acc.isEmpty = false := by
      rcases h : acc.isEmpty with _ | _
      · rfl
      · exact absurd ((String.isEmpty_iff acc).mp h) hacc
    have hne : acc ++ "&" ++ x ≠ "" :=
      str_append_ne_left (str_append_ne_left hacc)
    simp only [List.foldl_cons, hie, Bool.false_eq_true, if_false,
      String.intercalate.go]
    exact ih (acc ++ "&" ++ x) hne

theorem foldAmp_intercalate (xs : List String) (h : ∀ x ∈ xs, x ≠ "") :
    xs.foldl (fun result x => (if result.isEmpty then result else result ++ "&") ++ x) "" =
      String.intercalate "&" xs := by
  cases xs with
  | nil => rfl
  | cons x xs =>
    have hx : x ≠ "" := h x (by simp)
    simp only [List.foldl_cons, String.intercalate]
    exact foldAmp_go xs x hx

theorem get_params_str_eq_intercalate (params : List (String × Option String)) :
    get_params_str params =
      String.intercalate "&"
        ((List.insertionSort keyLe
          (params.filter (fun p => RESOURCES.contains p.1))).map entryStr) := by
  rw [get_params_str]
  have hne : ∀ x ∈ (List.insertionSort keyLe
      (params.filter (fun p => RESOURCES.contains p.1))).map entryStr, x ≠ "" := by
    intro x hx
    rcases List.mem_map.mp hx with ⟨p, hp, rfl⟩
    have hmem := (List.mem_insertionSort keyLe).mp hp
    have hres : RESOURCES.contains p.1 = true := (List.mem_filter.mp hmem).2
    have : p.1 ∈ RESOURCES := by simpa using hres
    exact entryStr_ne_empty (resources_key_ne_empty this)
  have h := foldAmp_intercalate ((List.insertionSort keyLe
    (params.filter (fun p => RESOURCES.contains p.1))).map entryStr) hne
  rw [List.foldl_map] at h
  exact h

theorem sorted_keys_strict {l : List (String × Option String)}
    (hnd : (l.map Prod.fst).Nodup) :
    (List.insertionSort keyLe l).Pairwise keyLt := by
  have hsorted : (List.insertionSort keyLe l).Pairwise keyLe :=
    List.sorted_insertionSort keyLe l
  have hperm : List.Perm (List.insertionSort keyLe l) l := List.perm_insertionSort keyLe l
  have hnd' : ((List.insertionSort keyLe l).map Prod.fst).Nodup :=
    (hperm.map Prod.fst).nodup_iff.mpr hnd
  have hne : (List.insertionSort keyLe l).Pairwise (fun a b => a.1 ≠ b.1) :=
    List.pairwise_map.mp hnd'
  exact (hsorted.and hne).imp (fun h => keyLt_of_keyLe_of_ne h.1 h.2)

theorem filter_keys_nodup {l : List (String × Option String)}
    (hnd : (l.map Prod.fst).Nodup) (p : (String × Option String) → Bool) :
    ((l.filter p).map Prod.fst).Nodup :=
  hnd.sublist (List.Sublist.map Prod.fst (List.filter_sublist l))

theorem get_params_str_perm {params params' : List (String × Option String)}
    (hnd : (params.map Prod.fst).Nodup) (hperm : List.Perm params params') :
    get_params_str params = get_params_str params' := by
  have hnd2 : (params'.map Prod.fst).Nodup := ((hperm.map Prod.fst).nodup_iff).mp hnd
  have hfperm : List.Perm (params.filter (fun p => RESOURCES.contains p.1))
      (params'.filter (fun p => RESOURCES.contains p.1)) :=
    hperm.filter _
  have hsortperm : List.Perm
      (List.insertionSort keyLe (params.filter (fun p => RESOURCES.contains p.1)))
      (List.insertionSort keyLe (params'.filter (fun p => RESOURCES.contains p.1))) :=
    ((List.perm_insertionSort keyLe _).trans hfperm).trans
      (List.perm_insertionSort keyLe _).symm
  have hs1 : (List.insertionSort keyLe
      (params.filter (fun p => RESOURCES.contains p.1))).Pairwise keyLt :=
    sorted_keys_strict (filter_keys_nodup hnd _)
  have hs2 : (List.insertionSort keyLe
      (params'.filter (fun p => RESOURCES.contains p.1))).Pairwise keyLt :=
    sorted_keys_strict (filter_keys_nodup hnd2 _)
  have heq : List.insertionSort keyLe (params.filter (fun p => RESOURCES.contains p.1)) =
      List.insertionSort keyLe (params'.filter (fun p => RESOURCES.contains p.1)) :=
    List.eq_of_perm_of_sorted hsortperm hs1 hs2
  simp only [get_params_str, heq]

/-- C2: `get_params_str` keeps exactly the allow-listed parameters of a
query-parameter mapping, sorts the entries strictly (ties impossible) by
byte-wise lexicographic comparison of the parameter names, renders a
parameter with a value as name=value and a valueless one as its bare
name, joins the entries with ampersands, and returns the same string for
any two entry lists that are permutations of one another, i.e. the
result does not depend on the hash-map iteration order. -/
theorem c2_get_params_str_spec (params params' : List (String × Option String))
    (hnd : (params.map Prod.fst).Nodup) (hperm : List.Perm params params') :
    get_params_str params = get_params_str params' ∧
    ∃ l : List (String × Option String),
      List.Perm l (params.filter (fun p => RESOURCES.contains p.1)) ∧
      l.Pairwise keyLt ∧
      get_params_str params = String.intercalate "&" (l.map entryStr) :=
  ⟨get_params_str_perm hnd hperm,
    List.insertionSort keyLe _,
    List.perm_insertionSort keyLe _,
    sorted_keys_strict (filter_keys_nodup hnd _),
    get_params_str_eq_intercalate params⟩

theorem c2_get_params_str_spec_witness :
    (([(("uploads" : String), (none : Option String)),
        ("acl", some "public")]).map Prod.fst).Nodup ∧
    List.Perm [(("uploads" : String), (none : Option String)), ("acl", some "public")]
      [("acl", some "public"), ("uploads", none)] ∧
    (get_params_str [(("uploads" : String), (none : Option String)), ("acl", some "public")] =
        get_params_str [("acl", some "public"), ("uploads", none)] ∧
      ∃ l : List (String × Option String),
        List.Perm l
          (([(("uploads" : String), (none : Option String)),
            ("acl", some "public")]).filter (fun p => RESOURCES.contains p.1)) ∧
        l.Pairwise keyLt ∧
        get_params_str [(("uploads" : String), (none : Option String)), ("acl", some "public")] =
          String.intercalate "&" (l.map entryStr)) :=
  ⟨by decide, by decide, c2_get_params_str_spec _ _ (by decide) (by decide)⟩

theorem host_eq_urlBase (endpoint bucket object s : String) :
    host endpoint bucket object s = urlBase endpoint bucket object ++ "?" ++ s := by
  by_cases h : strStartsWith endpoint "https" = true
  · simp [host, urlBase, h]
  · simp [host, urlBase, h]

/-- C1 (amended): for a get/put request, the URL is the base address
followed by a query string that is exactly the canonical resource string
— the same filtered, allow-listed string that is handed to the signer;
query parameters outside the allow-list are dropped from the URL as
well, not sent. -/
theorem c1_url_query_is_canonical (endpoint bucket object : String)
    (params : List (String × Option String)) :
    get_request endpoint bucket object (some params) =
      (urlBase endpoint bucket object ++ "?" ++ get_resources_str params,
        get_resources_str params) := by
  simp [get_request, host_eq_urlBase]

/-- C1 counterexample: the caller-supplied parameter `foo=bar` is not in
the allow-list, and the URL built for the get request does not mention
it anywhere — the URL's query string does not include all
caller-supplied query parameters. -/
theorem c1_url_drops_unlisted_param :
    (get_request "http://oss-cn.example.com" "bucket" "obj"
        (some [("foo", some "bar")])).1 = "http://bucket.oss-cn.example.com/obj?" ∧
    ¬ ("foo".data <:+: (get_request "http://oss-cn.example.com" "bucket" "obj"
        (some [("foo", some "bar")])).1.data) := by
  decide

/-- C3 counterexample: on the claim's inputs the string-to-sign built by
the spec's own signing algorithm (§4.3) differs from the claimed
string — the claimed string has an extra blank line between the date and
the canonical resource. -/
theorem c3_sign_scenario_mismatch :
    string_to_sign "PUT" "" "" "Mon, 01 Jan 2024 00:00:00 GMT" [] "b" "o.txt" "" ≠
      "PUT\n\n\nMon, 01 Jan 2024 00:00:00 GMT\n\n/b/o.txt" := by
  decide

/-- C3 (amended): signing verb PUT, bucket b, object o.txt, the given
date, empty headers and no canonical resource produces the string-to-
sign PUT, two empty lines, the date, then /b/o.txt — with no blank line
between the date and the resource, since zero canonicalized headers
contribute nothing. -/
theorem c3_sign_scenario_amended :
    string_to_sign "PUT" "" "" "Mon, 01 Jan 2024 00:00:00 GMT" [] "b" "o.txt" "" =
      "PUT\n\n\nMon, 01 Jan 2024 00:00:00 GMT\n/b/o.txt" := by
  decide

theorem readToEnd_suffix {name : String} : ∀ {d : Nat} {items r : List ReadItem},
    readToEnd name d items = .ok r → List.IsSuffix r items := by
  intro d items
  induction items generalizing d with
  | nil => intro r h; simp [readToEnd] at h
  | cons i rest ih =>
    intro r h
    have hsuf : List.IsSuffix rest (i :: rest) := List.suffix_cons i rest
    cases i with
    | fail => simp [readToEnd] at h
    | ev e =>
      cases e with
      | text s =>
        simp only [readToEnd] at h
        exact (ih h).trans hsuf
      | start n =>
        simp only [readToEnd] at h
        split at h
        · exact (ih h).trans hsuf
        · exact (ih h).trans hsuf
      | close n =>
        simp only [readToEnd] at h
        split at h
        · split at h
          · simp only [Except.ok.injEq] at h
            subst h
            exact hsuf
          · exact (ih h).trans hsuf
        · exact (ih h).trans hsuf

theorem readToEnd_length {name : String} : ∀ {d : Nat} {items r : List ReadItem},
    readToEnd name d items = .ok r → r.length < items.length := by
  intro d items
  induction items generalizing d with
  | nil => intro r h; simp [readToEnd] at h
  | cons i rest ih =>
    intro r h
    have hlt : rest.length < (i :: rest).length := by simp
    cases i with
    | fail => simp [readToEnd] at h
    | ev e =>
      cases e with
      | text s =>
        simp only [readToEnd] at h
        exact (ih h).trans hlt
      | start n =>
        simp only [readToEnd] at h
        split at h
        · exact (ih h).trans hlt
        · exact (ih h).trans hlt
      | close n =>
        simp only [readToEnd] at h
        split at h
        · split at h
          · simp only [Except.ok.injEq] at h
            subst h
            exact hlt
          · exact (ih h).trans hlt
        · exact (ih h).trans hlt

theorem readText_suffix {name : String} {items rest' : List ReadItem} {s : String}
    (h : readText name items = .ok (s, rest')) : List.IsSuffix rest' items := by
  cases items with
  | nil => simp [readText] at h
  | cons i rest =>
    cases i with
    | fail => simp [readText] at h
    | ev e =>
      cases e with
      | start n => simp [readText] at h
      | text t =>
        simp only [readText] at h
        cases hre : readToEnd name 0 rest with
        | error e => simp [hre, Except.map] at h
        | ok r =>
          simp only [hre, Except.map, Except.ok.injEq, Prod.mk.injEq] at h
          obtain ⟨_, rfl⟩ := h
          exact (readToEnd_suffix hre).trans (List.suffix_cons _ _)
      | close n =>
        simp only [readText] at h
        split at h
        · simp only [Except.ok.injEq, Prod.mk.injEq] at h
          obtain ⟨_, rfl⟩ := h
          exact List.suffix_cons _ _
        · simp at h

theorem readText_length {name : String} {items rest' : List ReadItem} {s : String}
    (h : readText name items = .ok (s, rest')) : rest'.length < items.length := by
  cases items with
  | nil => simp [readText] at h
  | cons i rest =>
    have hlt : rest.length < (i :: rest).length := by simp
    cases i with
    | fail => simp [readText] at h
    | ev e =>
      cases e with
      | start n => simp [readText] at h
      | text t =>
        simp only [readText] at h
        cases hre : readToEnd name 0 rest with
        | error e => simp [hre, Except.map] at h
        | ok r =>
          simp only [hre, Except.map, Except.ok.injEq, Prod.mk.injEq] at h
          obtain ⟨_, rfl⟩ := h
          exact (readToEnd_length hre).trans hlt
      | close n =>
        simp only [readText] at h
        split at h
        · simp only [Except.ok.injEq, Prod.mk.injEq] at h
          obtain ⟨_, rfl⟩ := h
          exact hlt
        · simp at h

theorem cpLoop_ok_suffix : ∀ {fuel : Nat} {items : List ReadItem} {acc ps : List String}
    {rest' : List ReadItem},
    cpLoop fuel items acc = .ok (ps, rest') → List.IsSuffix rest' items := by
  intro fuel
  induction fuel with
  | zero => intro items acc ps rest' h; simp [cpLoop] at h
  | succ k ih =>
    intro items acc ps rest' h
    cases items with
    | nil => simp [cpLoop] at h
    | cons i rest =>
      have hsuf : List.IsSuffix rest (i :: rest) := List.suffix_cons i rest
      cases i with
      | fail => simp [cpLoop] at h
      | ev e =>
        cases e with
        | text s => simp [cpLoop] at h
        | start n =>
          simp only [cpLoop] at h
          split at h
          · cases hrt : readText "PreFix" rest with
            | error e => simp [hrt] at h
            | ok pr =>
              obtain ⟨s, r2⟩ := pr
              simp only [hrt] at h
              exact ((ih h).trans (readText_suffix hrt)).trans hsuf
          · exact (ih h).trans hsuf
        | close n =>
          simp only [cpLoop] at h
          split at h
          · simp only [Outcome.ok.injEq, Prod.mk.injEq] at h
            obtain ⟨_, rfl⟩ := h
            exact hsuf
          · exact (ih h).trans hsuf

theorem cpLoop_ok_length : ∀ {fuel : Nat} {items : List ReadItem} {acc ps : List String}
    {rest' : List ReadItem},
    cpLoop fuel items acc = .ok (ps, rest') → rest'.length < items.length := by
  intro fuel
  induction fuel with
  | zero => intro items acc ps rest' h; simp [cpLoop] at h
  | succ k ih =>
    intro items acc ps rest' h
    cases items with
    | nil => simp [cpLoop] at h
    | cons i rest =>
      have hlt : rest.length < (i :: rest).length := by simp
      cases i with
      | fail => simp [cpLoop] at h
      | ev e =>
        cases e with
        | text s => simp [cpLoop] at h
        | start n =>
          simp only [cpLoop] at h
          split at h
          · cases hrt : readText "PreFix" rest with
            | error e => simp [hrt] at h
            | ok pr =>
              obtain ⟨s, r2⟩ := pr
              simp only [hrt] at h
              exact ((ih h).trans (readText_length hrt)).trans hlt
          · exact (ih h).trans hlt
        | close n =>
          simp only [cpLoop] at h
          split at h
          · simp only [Outcome.ok.injEq, Prod.mk.injEq] at h
            obtain ⟨_, rfl⟩ := h
            exact hlt
          · exact (ih h).trans hlt

theorem cpLoop_mono : ∀ (f1 f2 : Nat) (items : List ReadItem) (acc : List String),
    items.length < f1 → items.length < f2 →
    cpLoop f1 items acc = cpLoop f2 items acc := by
  intro f1
  induction f1 with
  | zero => intro f2 items acc h1 _; exact absurd h1 (Nat.not_lt_zero _)
  | succ k ih =>
    intro f2 items acc h1 h2
    cases f2 with
    | zero => exact absurd h2 (Nat.not_lt_zero _)
    | succ m =>
      cases items with
      | nil => rfl
      | cons i rest =>
        have hk : rest.length < k := by simp only [List.length_cons] at h1; omega
        have hm : rest.length < m := by simp only [List.length_cons] at h2; omega
        cases i with
        | fail => rfl
        | ev e =>
          cases e with
          | text s => rfl
          | start n =>
            simp only [cpLoop]
            by_cases hn : n = "PreFix"
            · simp only [if_pos hn]
              cases hrt : readText "PreFix" rest with
              | error e => simp only [hrt]
              | ok pr =>
                obtain ⟨s, r2⟩ := pr
                simp only [hrt]
                have hl := readText_length hrt
                exact ih m r2 (acc ++ [s]) (hl.trans hk) (hl.trans hm)
            · simp only [if_neg hn]
              exact ih m rest acc hk hm
          | close n =>
            simp only [cpLoop]
            by_cases hn : n = "CommonPrefixes"
            · simp only [if_pos hn]
            · simp only [if_neg hn]
              exact ih m rest acc hk hm

theorem ldLoop_mono : ∀ (f1 f2 : Nat) (items : List ReadItem) (cur : DetailObjects)
    (res : ListDetailsResponse),
    items.length < f1 → items.length < f2 →
    ldLoop f1 items cur res = ldLoop f2 items cur res := by
  intro f1
  induction f1 with
  | zero => intro f2 items cur res h1 _; exact absurd h1 (Nat.not_lt_zero _)
  | succ k ih =>
    intro f2 items cur res h1 h2
    cases f2 with
    | zero => exact absurd h2 (Nat.not_lt_zero _)
    | succ m =>
      cases items with
      | nil => rfl
      | cons i rest =>
        have hk : rest.length < k := by simp only [List.length_cons] at h1; omega
        have hm : rest.length < m := by simp only [List.length_cons] at h2; omega
        cases i with
        | fail => rfl
        | ev e =>
          cases e with
          | text s =>
            simp only [ldLoop]
            exact ih m rest cur res hk hm
          | close n =>
            simp only [ldLoop]
            by_cases hn : n = "Contents"
            · simp only [if_pos hn]
              exact ih m rest {} _ hk hm
            · simp only [if_neg hn]
              exact ih m rest cur res hk hm
          | start n =>
            simp only [ldLoop]
            by_cases hc1 : n = "Contents"
            · simp only [if_pos hc1]
              exact ih m rest cur res hk hm
            by_cases hc2 : n = "Key"
            · simp only [if_neg hc1, if_pos hc2]
              cases hrt : readText "Key" rest with
              | error e => simp only [hrt]
              | ok pr =>
                obtain ⟨s, r2⟩ := pr
                simp only [hrt]
                have hl := readText_length hrt
                exact ih m r2 _ res (hl.trans hk) (hl.trans hm)
            by_cases hc3 : n = "LastModified"
            · simp only [if_neg hc1, if_neg hc2, if_pos hc3]
              cases hrt : readText "LastModified" rest with
              | error e => simp only [hrt]
              | ok pr =>
                obtain ⟨s, r2⟩ := pr
                simp only [hrt]
                have hl := readText_length hrt
                exact ih m r2 _ res (hl.trans hk) (hl.trans hm)
            by_cases hc4 : n = "ETag"
            · simp only [if_neg hc1, if_neg hc2, if_neg hc3, if_pos hc4]
              cases hrt : readText "ETag" rest with
              | error e => simp only [hrt]
              | ok pr =>
                obtain ⟨s, r2⟩ := pr
                simp only [hrt]
                have hl := readText_length hrt
                exact ih m r2 _ res (hl.trans hk) (hl.trans hm)
            by_cases hc5 : n = "Size"
            · simp only [if_neg hc1, if_neg hc2, if_neg hc3, if_neg hc4, if_pos hc5]
              cases hrt : readText "Size" rest with
              | error e => simp only [hrt]
              | ok pr =>
                obtain ⟨s, r2⟩ := pr
                simp only [hrt]
                have hl := readText_length hrt
                exact ih m r2 _ res (hl.trans hk) (hl.trans hm)
            by_cases hc6 : n = "IsTruncated"
            · simp only [if_neg hc1, if_neg hc2, if_neg hc3, if_neg hc4, if_neg hc5,
                if_pos hc6]
              cases hrt : readText "IsTruncated" rest with
              | error e => simp only [hrt]
              | ok pr =>
                obtain ⟨s, r2⟩ := pr
                simp only [hrt]
                cases hpb : parseBoolRust s with
                | error e => simp only [hpb]
                | ok b =>
                  simp only [hpb]
                  have hl := readText_length hrt
                  exact ih m r2 cur _ (hl.trans hk) (hl.trans hm)
            by_cases hc7 : n = "NextContinuationToken"
            · simp only [if_neg hc1, if_neg hc2, if_neg hc3, if_neg hc4, if_neg hc5,
                if_neg hc6, if_pos hc7]
              cases hrt : readText "NextContinuationToken" rest with
              | error e => simp only [hrt]
              | ok pr =>
                obtain ⟨s, r2⟩ := pr
                simp only [hrt]
                have hl := readText_length hrt
                exact ih m r2 cur _ (hl.trans hk) (hl.trans hm)
            by_cases hc8 : n = "CommonPrefixes"
            · simp only [if_neg hc1, if_neg hc2, if_neg hc3, if_neg hc4, if_neg hc5,
                if_neg hc6, if_neg hc7, if_pos hc8]
              rw [cpLoop_mono k m rest res.prefixes hk hm]
              cases hcp : cpLoop m rest res.prefixes with
              | panicked => simp only [hcp]
              | err e => simp only [hcp]
              | ok pr =>
                obtain ⟨ps, r2⟩ := pr
                simp only [hcp]
                have hl := cpLoop_ok_length hcp
                exact ih m r2 cur _ (hl.trans hk) (hl.trans hm)
            simp only [if_neg hc1, if_neg hc2, if_neg hc3, if_neg hc4, if_neg hc5,
              if_neg hc6, if_neg hc7, if_neg hc8]
            exact ih m rest cur res hk hm

theorem ldLoop_run (fuel : Nat) (items : List ReadItem) (cur : DetailObjects)
    (res : ListDetailsResponse) (h : items.length < fuel) :
    ldLoop fuel items cur res = ldRun items cur res :=
  ldLoop_mono fuel (items.length + 1) items cur res h (Nat.lt_succ_self _)

theorem ldRun_start_contents (rest : List ReadItem) (cur : DetailObjects)
    (res : ListDetailsResponse) :
    ldRun (.ev (.start "Contents") :: rest) cur res = ldRun rest cur res := rfl

theorem ldRun_close_contents (rest : List ReadItem) (cur : DetailObjects)
    (res : ListDetailsResponse) :
    ldRun (.ev (.close "Contents") :: rest) cur res =
      ldRun rest {} { res with objects := res.objects ++ [cur] } := rfl

theorem ldRun_field_key (k : String) (rest : List ReadItem) (cur : DetailObjects)
    (res : ListDetailsResponse) :
    ldRun (leafEv ("Key", k) ++ rest) cur res = ldRun rest { cur with key := k } res := by
  show ldLoop ((leafEv ("Key", k) ++ rest).length + 1) _ _ _ = _
  rw [show (leafEv ("Key", k) ++ rest).length + 1 = rest.length + 4 by simp [leafEv]]
  rw [show ldLoop (rest.length + 4) (leafEv ("Key", k) ++ rest) cur res =
    ldLoop (rest.length + 3) rest { cur with key := k } res from rfl]
  exact ldLoop_run _ _ _ _ (by omega)

theorem ldRun_field_last_modified (v : String) (rest : List ReadItem)
    (cur : DetailObjects) (res : ListDetailsResponse) :
    ldRun (leafEv ("LastModified", v) ++ rest) cur res =
      ldRun rest { cur with last_modified := v } res := by
  show ldLoop ((leafEv ("LastModified", v) ++ rest).length + 1) _ _ _ = _
  rw [show (leafEv ("LastModified", v) ++ rest).length + 1 = rest.length + 4 by simp [leafEv]]
  rw [show ldLoop (rest.length + 4) (leafEv ("LastModified", v) ++ rest) cur res =
    ldLoop (rest.length + 3) rest { cur with last_modified := v } res from rfl]
  exact ldLoop_run _ _ _ _ (by omega)

theorem ldRun_field_e_tag (v : String) (rest : List ReadItem) (cur : DetailObjects)
    (res : ListDetailsResponse) :
    ldRun (leafEv ("ETag", v) ++ rest) cur res = ldRun rest { cur with e_tag := v } res := by
  show ldLoop ((leafEv ("ETag", v) ++ rest).length + 1) _ _ _ = _
  rw [show (leafEv ("ETag", v) ++ rest).length + 1 = rest.length + 4 by simp [leafEv]]
  rw [show ldLoop (rest.length + 4) (leafEv ("ETag", v) ++ rest) cur res =
    ldLoop (rest.length + 3) rest { cur with e_tag := v } res from rfl]
  exact ldLoop_run _ _ _ _ (by omega)

theorem ldRun_field_size (v : String) (rest : List ReadItem) (cur : DetailObjects)
    (res : ListDetailsResponse) :
    ldRun (leafEv ("Size", v) ++ rest) cur res = ldRun rest { cur with size := v } res := by
  show ldLoop ((leafEv ("Size", v) ++ rest).length + 1) _ _ _ = _
  rw [show (leafEv ("Size", v) ++ rest).length + 1 = rest.length + 4 by simp [leafEv]]
  rw [show ldLoop (rest.length + 4) (leafEv ("Size", v) ++ rest) cur res =
    ldLoop (rest.length + 3) rest { cur with size := v } res from rfl]
  exact ldLoop_run _ _ _ _ (by omega)

theorem ldRun_unknown_leaf (nv : String × String) (hn : goodName nv.1)
    (rest : List ReadItem) (cur : DetailObjects) (res : ListDetailsResponse) :
    ldRun (leafEv nv ++ rest) cur res = ldRun rest cur res := by
  simp only [goodName, List.mem_cons, List.mem_singleton, not_or] at hn
  obtain ⟨h1, h2, h3, h4, h5, h6, h7, h8⟩ := hn
  show ldLoop ((leafEv nv ++ rest).length + 1) _ _ _ = _
  rw [show (leafEv nv ++ rest).length + 1 = rest.length + 1 + 1 + 1 + 1 by
    simp [leafEv]]
  simp only [leafEv, List.cons_append, List.nil_append]
  simp only [ldLoop, h1, h2, h3, h4, h5, h6, h7, h8, if_false]
  rfl

theorem ldRun_leaves (ls : List (String × String)) (h : ∀ nv ∈ ls, goodName nv.1)
    (rest : List ReadItem) (cur : DetailObjects) (res : ListDetailsResponse) :
    ldRun (leavesEvents ls ++ rest) cur res = ldRun rest cur res := by
  induction ls with
  | nil => rw [leavesEvents, List.nil_append]
  | cons nv t ih =>
    have h1 : goodName nv.1 := h nv (by simp)
    have ht : ∀ x ∈ t, goodName x.1 := fun x hx => h x (by simp [hx])
    rw [leavesEvents, List.append_assoc, ldRun_unknown_leaf nv h1]
    exact ih ht

theorem ldRun_block (b : ContentsBlock) (hb : goodBlock b) (rest : List ReadItem)
    (cur : DetailObjects) (res : ListDetailsResponse) :
    ldRun (blockEvents b ++ rest) cur res =
      ldRun rest {} { res with objects := res.objects ++ [blockEntry b] } := by
  have hpre : ∀ nv ∈ b.pre, goodName nv.1 :=
    fun nv h => hb nv (List.mem_append.mpr (Or.inl h))
  have hpost : ∀ nv ∈ b.post, goodName nv.1 :=
    fun nv h => hb nv (List.mem_append.mpr (Or.inr h))
  rw [blockEvents]
  simp only [List.append_assoc, List.singleton_append, List.cons_append]
  rw [ldRun_start_contents]
  simp only [List.nil_append]
  rw [ldRun_leaves b.pre hpre, ldRun_field_key, ldRun_field_last_modified,
    ldRun_field_e_tag, ldRun_field_size, ldRun_leaves b.post hpost,
    ldRun_close_contents]
  rfl

theorem ldRun_blocks (blocks : List ContentsBlock) (h : ∀ b ∈ blocks, goodBlock b) :
    ∀ (rest : List ReadItem) (cur : DetailObjects) (res : ListDetailsResponse),
    ∃ cur', ldRun (blocksEvents blocks ++ rest) cur res =
      ldRun rest cur' { res with objects := res.objects ++ blocks.map blockEntry } := by
  induction blocks with
  | nil =>
    intro rest cur res
    refine ⟨cur, ?_⟩
    rw [blocksEvents, List.nil_append]
    simp
  | cons b t ih =>
    intro rest cur res
    have hb := h b (by simp)
    have ht : ∀ x ∈ t, goodBlock x := fun x hx => h x (by simp [hx])
    rw [blocksEvents, List.append_assoc, ldRun_block b hb]
    obtain ⟨cur', hc⟩ :=
      ih ht rest {} { res with objects := res.objects ++ [blockEntry b] }
    refine ⟨cur', ?_⟩
    rw [hc]
    simp

/-- C4: decoding a well-formed listing document consisting of N
`Contents` blocks — each holding its `Key`, `LastModified`, `ETag` and
`Size` leaf tags in document order, surrounded by arbitrary leaf tags
with unrecognized names — succeeds and returns exactly N entries, in
document order, each entry's key, last_modified, e_tag and size equal
to the text of the corresponding tag of its block; the unrecognized
tags are ignored rather than causing errors. -/
theorem c4_list_details_contents (blocks : List ContentsBlock)
    (h : ∀ b ∈ blocks, goodBlock b) :
    list_details_decode (blocksEvents blocks) =
      .ok { is_truncated := false, objects := blocks.map blockEntry,
            prefixes := [], next_marker := "" } := by
  obtain ⟨cur', hc⟩ := ldRun_blocks blocks h [] {} {}
  rw [list_details_decode, show blocksEvents blocks = blocksEvents blocks ++ [] by simp,
    hc]
  rfl

theorem loLoop_no_panic : ∀ (fuel : Nat) (items : List ReadItem) (acc : List String),
    items.length < fuel → ReadItem.fail ∉ items →
    loLoop fuel items acc ≠ .panicked := by
  intro fuel
  induction fuel with
  | zero => intro items acc h _; exact absurd h (Nat.not_lt_zero _)
  | succ k ih =>
    intro items acc h hf
    cases items with
    | nil => simp [loLoop]
    | cons i rest =>
      have hk : rest.length < k := by simp only [List.length_cons] at h; omega
      have hf' : ReadItem.fail ∉ rest := fun hx => hf (List.mem_cons_of_mem _ hx)
      cases i with
      | fail => exact absurd (List.mem_cons_self _ _) hf
      | ev e =>
        cases e with
        | text s => exact ih rest acc hk hf'
        | close n => exact ih rest acc hk hf'
        | start n =>
          simp only [loLoop]
          by_cases hn : n = "Key"
          · simp only [if_pos hn]
            cases hrt : readText "Key" rest with
            | error e => simp
            | ok pr =>
              obtain ⟨s, r2⟩ := pr
              simp only []
              exact ih r2 (acc ++ [s]) ((readText_length hrt).trans hk)
                (fun hx => hf' ((readText_suffix hrt).subset hx))
          · simp only [if_neg hn]
            exact ih rest acc hk hf'

theorem ldLoop_no_panic : ∀ (fuel : Nat) (items : List ReadItem) (cur : DetailObjects)
    (res : ListDetailsResponse),
    items.length < fuel → ReadItem.fail ∉ items →
    ReadItem.ev (XmlEvent.start "CommonPrefixes") ∉ items →
    ldLoop fuel items cur res ≠ .panicked := by
  intro fuel
  induction fuel with
  | zero => intro items cur res h _ _; exact absurd h (Nat.not_lt_zero _)
  | succ k ih =>
    intro items cur res h hf hcp
    cases items with
    | nil => simp [ldLoop]
    | cons i rest =>
      have hk : rest.length < k := by simp only [List.length_cons] at h; omega
      have hf' : ReadItem.fail ∉ rest := fun hx => hf (List.mem_cons_of_mem _ hx)
      have hcp' : ReadItem.ev (XmlEvent.start "CommonPrefixes") ∉ rest :=
        fun hx => hcp (List.mem_cons_of_mem _ hx)
      cases i with
      | fail => exact absurd (List.mem_cons_self _ _) hf
      | ev e =>
        cases e with
        | text s => exact ih rest cur res hk hf' hcp'
        | close n =>
          simp only [ldLoop]
          by_cases hn : n = "Contents"
          · simp only [if_pos hn]
            exact ih rest {} _ hk hf' hcp'
          · simp only [if_neg hn]
            exact ih rest cur res hk hf' hcp'
        | start n =>
          simp only [ldLoop]
          by_cases hc1 : n = "Contents"
          · simp only [if_pos hc1]
            exact ih rest cur res hk hf' hcp'
          by_cases hc2 : n = "Key"
          · simp only [if_neg hc1, if_pos hc2]
            cases hrt : readText "Key" rest with
            | error e => simp
            | ok pr =>
              obtain ⟨s, r2⟩ := pr
              simp only []
              exact ih r2 _ res ((readText_length hrt).trans hk)
                (fun hx => hf' ((readText_suffix hrt).subset hx))
                (fun hx => hcp' ((readText_suffix hrt).subset hx))
          by_cases hc3 : n = "LastModified"
          · simp only [if_neg hc1, if_neg hc2, if_pos hc3]
            cases hrt : readText "LastModified" rest with
            | error e => simp
            | ok pr =>
              obtain ⟨s, r2⟩ := pr
              simp only []
              exact ih r2 _ res ((readText_length hrt).trans hk)
                (fun hx => hf' ((readText_suffix hrt).subset hx))
                (fun hx => hcp' ((readText_suffix hrt).subset hx))
          by_cases hc4 : n = "ETag"
          · simp only [if_neg hc1, if_neg hc2, if_neg hc3, if_pos hc4]
            cases hrt : readText "ETag" rest with
            | error e => simp
            | ok pr =>
              obtain ⟨s, r2⟩ := pr
              simp only []
              exact ih r2 _ res ((readText_length hrt).trans hk)
                (fun hx => hf' ((readText_suffix hrt).subset hx))
                (fun hx => hcp' ((readText_suffix hrt).subset hx))
          by_cases hc5 : n = "Size"
          · simp only [if_neg hc1, if_neg hc2, if_neg hc3, if_neg hc4, if_pos hc5]
            cases hrt : readText "Size" rest with
            | error e => simp
            | ok pr =>
              obtain ⟨s, r2⟩ := pr
              simp only []
              exact ih r2 _ res ((readText_length hrt).trans hk)
                (fun hx => hf' ((readText_suffix hrt).subset hx))
                (fun hx => hcp' ((readText_suffix hrt).subset hx))
          by_cases hc6 : n = "IsTruncated"
          · simp only [if_neg hc1, if_neg hc2, if_neg hc3, if_neg hc4, if_neg hc5,
              if_pos hc6]
            cases hrt : readText "IsTruncated" rest with
            | error e => simp
            | ok pr =>
              obtain ⟨s, r2⟩ := pr
              simp only []
              cases hpb : parseBoolRust s with
              | error e => simp
              | ok b =>
                simp only []
                exact ih r2 cur _ ((readText_length hrt).trans hk)
                  (fun hx => hf' ((readText_suffix hrt).subset hx))
                  (fun hx => hcp' ((readText_suffix hrt).subset hx))
          by_cases hc7 : n = "NextContinuationToken"
          · simp only [if_neg hc1, if_neg hc2, if_neg hc3, if_neg hc4, if_neg hc5,
              if_neg hc6, if_pos hc7]
            cases hrt : readText "NextContinuationToken" rest with
            | error e => simp
            | ok pr =>
              obtain ⟨s, r2⟩ := pr
              simp only []
              exact ih r2 cur _ ((readText_length hrt).trans hk)
                (fun hx => hf' ((readText_suffix hrt).subset hx))
                (fun hx => hcp' ((readText_suffix hrt).subset hx))
          by_cases hc8 : n = "CommonPrefixes"
          · subst hc8
            exact absurd (List.mem_cons_self _ _) hcp
          simp only [if_neg hc1, if_neg hc2, if_neg hc3, if_neg hc4, if_neg hc5,
            if_neg hc6, if_neg hc7, if_neg hc8]
          exact ih rest cur res hk hf' hcp'

theorem ldLoop_next_marker : ∀ (fuel : Nat) (items : List ReadItem) (cur : DetailObjects)
    (res r : ListDetailsResponse),
    ReadItem.ev (XmlEvent.start "NextContinuationToken") ∉ items →
    ldLoop fuel items cur res = .ok r → r.next_marker = res.next_marker := by
  intro fuel
  induction fuel with
  | zero => intro items cur res r _ h2; simp [ldLoop] at h2
  | succ k ih =>
    intro items cur res r hnt h2
    cases items with
    | nil =>
      simp only [ldLoop, Outcome.ok.injEq] at h2
      subst h2
      rfl
    | cons i rest =>
      have hnt' : ReadItem.ev (XmlEvent.start "NextContinuationToken") ∉ rest :=
        fun hx => hnt (List.mem_cons_of_mem _ hx)
      cases i with
      | fail => simp [ldLoop] at h2
      | ev e =>
        cases e with
        | text s => exact ih rest cur res r hnt' h2
        | close n =>
          simp only [ldLoop] at h2
          split at h2
          · exact (ih rest {} { res with objects := res.objects ++ [cur] } r hnt' h2).trans
              rfl
          · exact ih rest cur res r hnt' h2
        | start n =>
          simp only [ldLoop] at h2
          by_cases hc1 : n = "Contents"
          · rw [if_pos hc1] at h2
            exact ih rest cur res r hnt' h2
          by_cases hc2 : n = "Key"
          · rw [if_neg hc1, if_pos hc2] at h2
            cases hrt : readText "Key" rest with
            | error e => rw [hrt] at h2; simp at h2
            | ok pr =>
              obtain ⟨s, r2⟩ := pr
              rw [hrt] at h2
              exact ih r2 _ res r
                (fun hx => hnt' ((readText_suffix hrt).subset hx)) h2
          by_cases hc3 : n = "LastModified"
          · rw [if_neg hc1, if_neg hc2, if_pos hc3] at h2
            cases hrt : readText "LastModified" rest with
            | error e => rw [hrt] at h2; simp at h2
            | ok pr =>
              obtain ⟨s, r2⟩ := pr
              rw [hrt] at h2
              exact ih r2 _ res r
                (fun hx => hnt' ((readText_suffix hrt).subset hx)) h2
          by_cases hc4 : n = "ETag"
          · rw [if_neg hc1, if_neg hc2, if_neg hc3, if_pos hc4] at h2
            cases hrt : readText "ETag" rest with
            | error e => rw [hrt] at h2; simp at h2
            | ok pr =>
              obtain ⟨s, r2⟩ := pr
              rw [hrt] at h2
              exact ih r2 _ res r
                (fun hx => hnt' ((readText_suffix hrt).subset hx)) h2
          by_cases hc5 : n = "Size"
          · rw [if_neg hc1, if_neg hc2, if_neg hc3, if_neg hc4, if_pos hc5] at h2
            cases hrt : readText "Size" rest with
            | error e => rw [hrt] at h2; simp at h2
            | ok pr =>
              obtain ⟨s, r2⟩ := pr
              rw [hrt] at h2
              exact ih r2 _ res r
                (fun hx => hnt' ((readText_suffix hrt).subset hx)) h2
          by_cases hc6 : n = "IsTruncated"
          · rw [if_neg hc1, if_neg hc2, if_neg hc3, if_neg hc4, if_neg hc5,
              if_pos hc6] at h2
            cases hrt : readText "IsTruncated" rest with
            | error e => rw [hrt] at h2; simp at h2
            | ok pr =>
              obtain ⟨s, r2⟩ := pr
              simp only [hrt] at h2
              cases hpb : parseBoolRust s with
              | error e => simp [hpb] at h2
              | ok b =>
                simp only [hpb] at h2
                exact (ih r2 cur { res with is_truncated := b } r
                  (fun hx => hnt' ((readText_suffix hrt).subset hx)) h2).trans rfl
          by_cases hc7 : n = "NextContinuationToken"
          · subst hc7
            exact absurd (List.mem_cons_self _ _) hnt
          by_cases hc8 : n = "CommonPrefixes"
          · rw [if_neg hc1, if_neg hc2, if_neg hc3, if_neg hc4, if_neg hc5,
              if_neg hc6, if_neg hc7, if_pos hc8] at h2
            cases hcl : cpLoop k rest res.prefixes with
            | panicked => rw [hcl] at h2; simp at h2
            | err e => rw [hcl] at h2; simp at h2
            | ok pr =>
              obtain ⟨ps, r2⟩ := pr
              rw [hcl] at h2
              exact (ih r2 cur { res with prefixes := ps } r
                (fun hx => hnt' ((cpLoop_ok_suffix hcl).subset hx)) h2).trans rfl
          rw [if_neg hc1, if_neg hc2, if_neg hc3, if_neg hc4, if_neg hc5,
            if_neg hc6, if_neg hc7, if_neg hc8] at h2
          exact ih rest cur res r hnt' h2

/-- C5 counterexample: a reader-level XML error (the `Err` result of
`read_event` on a malformed document) makes both decoders hit their
`panic!` arm — they do not return a typed parse error to the caller. -/
theorem c5_reader_error_panics :
    list_details_decode [ReadItem.fail] = .panicked ∧
    list_objects_decode [ReadItem.fail] = .panicked := by
  decide

/-- C5 (amended): on event streams free of reader-level XML errors the
`list_objects` decoder never panics, and the `list_details` decoder
never panics provided additionally no `CommonPrefixes` container is
opened; a failure inside `read_text` — in particular end-of-input while
a recognized field tag is open — is returned as a typed error, as shown
for a document that ends right after an open `Key` tag.  Reader-level
errors, and unexpected events inside an open `CommonPrefixes` container,
cause a panic instead. -/
theorem c5_decoders_amended :
    (∀ items : List ReadItem, ReadItem.fail ∉ items →
      list_objects_decode items ≠ .panicked) ∧
    (∀ items : List ReadItem, ReadItem.fail ∉ items →
      ReadItem.ev (XmlEvent.start "CommonPrefixes") ∉ items →
      list_details_decode items ≠ .panicked) ∧
    list_details_decode [ReadItem.ev (XmlEvent.start "Key")] = .err .unexpectedEof :=
  ⟨fun items hf => loLoop_no_panic (items.length + 1) items [] (Nat.lt_succ_self _) hf,
   fun items hf hcp =>
     ldLoop_no_panic (items.length + 1) items {} {} (Nat.lt_succ_self _) hf hcp,
   by decide⟩

theorem c5_decoders_amended_witness :
    (ReadItem.fail ∉ [ReadItem.ev (XmlEvent.start "Key"),
        ReadItem.ev (XmlEvent.text "k"), ReadItem.ev (XmlEvent.close "Key")]) ∧
    list_objects_decode [ReadItem.ev (XmlEvent.start "Key"),
        ReadItem.ev (XmlEvent.text "k"), ReadItem.ev (XmlEvent.close "Key")] ≠ .panicked :=
  ⟨by decide, c5_decoders_amended.1 _ (by decide)⟩

/-- C7 counterexample: a document carrying `IsTruncated=false` together
with a `NextContinuationToken` decodes to a response with
`is_truncated = false` and a non-empty `next_marker` — the decoder does
not enforce the claimed invariant. -/
theorem c7_token_without_truncation :
    list_details_decode (leafEv ("IsTruncated", "false") ++
        leafEv ("NextContinuationToken", "abc")) =
      .ok { is_truncated := false, objects := [], prefixes := [],
            next_marker := "abc" } ∧
    ({ is_truncated := false, objects := [], prefixes := [],
       next_marker := "abc" } : ListDetailsResponse).is_truncated = false ∧
    ({ is_truncated := false, objects := [], prefixes := [],
       next_marker := "abc" } : ListDetailsResponse).next_marker ≠ "" := by
  decide

/-- C7 (amended): `next_marker` mirrors the `NextContinuationToken` tag
independently of `is_truncated`; whenever the decoded document contains
no `NextContinuationToken` tag — in particular every document a
non-truncated listing is expected to produce — the returned
`next_marker` is the empty string. -/
theorem c7_next_marker_amended (items : List ReadItem)
    (h : ReadItem.ev (XmlEvent.start "NextContinuationToken") ∉ items)
    (r : ListDetailsResponse) (hr : list_details_decode items = .ok r) :
    r.next_marker = "" :=
  ldLoop_next_marker (items.length + 1) items {} {} r h hr

theorem c7_next_marker_amended_witness :
    (ReadItem.ev (XmlEvent.start "NextContinuationToken") ∉
      leafEv ("IsTruncated", "false")) ∧
    list_details_decode (leafEv ("IsTruncated", "false")) =
      .ok { is_truncated := false, objects := [], prefixes := [], next_marker := "" } ∧
    ({ is_truncated := false, objects := [], prefixes := [],
       next_marker := "" } : ListDetailsResponse).next_marker = "" :=
  ⟨by decide, by decide,
    c7_next_marker_amended (leafEv ("IsTruncated", "false")) (by decide) _ (by decide)⟩

theorem c4_list_details_contents_witness :
    (∀ b ∈ [ContentsBlock.mk [("Owner", "me")] "k1" "2024-01-01" "etag1" "11"
        [("StorageClass", "Standard")],
      ContentsBlock.mk [] "k2" "2024-01-02" "etag2" "22" []], goodBlock b) ∧
    list_details_decode (blocksEvents
        [ContentsBlock.mk [("Owner", "me")] "k1" "2024-01-01" "etag1" "11"
          [("StorageClass", "Standard")],
        ContentsBlock.mk [] "k2" "2024-01-02" "etag2" "22" []]) =
      .ok { is_truncated := false,
            objects := [ContentsBlock.mk [("Owner", "me")] "k1" "2024-01-01" "etag1" "11"
                [("StorageClass", "Standard")],
              ContentsBlock.mk [] "k2" "2024-01-02" "etag2" "22" []].map blockEntry,
            prefixes := [], next_marker := "" } :=
  ⟨by decide, c4_list_details_contents _ (by decide)⟩

/-- C6: the error classification is as claimed for get (a get-error
whose message contains the numeric code 404), but the head operation
does not return a head-error — exactly as written in src/object.rs
lines 398-402, a failing head returns `ObjectError::DeleteError` with
the delete message, even though errors.rs defines a `HeadError` variant
for it. -/
theorem c6_head_error_misclassified :
    get_result 404 = some (ObjectError.getError "can not get object, status code: 404") ∧
    ("404".data <:+: "can not get object, status code: 404".data) ∧
    head_result 404 =
      some (ObjectError.deleteError "can not delete object, status code: 404") ∧
    ("404".data <:+: "can not delete object, status code: 404".data) ∧
    isHeadError (head_result 404) = false := by
  decide

/-- C9 counterexample: a body whose bytes are not valid UTF-8 (the
single byte 0xFF) makes the buffered-to-text conversion
(`Into<GetObjResponse>`, src/object.rs lines 159-168) hit its
`.expect(..)` — a panic, not a typed error returned to the caller. -/
theorem c9_invalid_utf8_panics :
    intoGetObjResponse ⟨[0xFF], []⟩ = .panicked ∧
    utf8Decode [0xFF] = none := by
  decide

/-- C9 (amended): the buffered-to-text coercion used by `get` panics
exactly when the body bytes are not valid UTF-8; on valid UTF-8 it
returns the decoded text and the metadata unchanged.  The UTF-8
conversion failure is therefore a panic, not a typed error — unlike the
other failure classes of the operation, which propagate through `?`. -/
theorem c9_utf8_panic_iff (r : GetBufferedObjResponse) :
    (intoGetObjResponse r = .panicked ↔ utf8Decode r.content = none) ∧
    (∀ cs, utf8Decode r.content = some cs →
      intoGetObjResponse r = .ok { content := cs, meta := r.meta }) := by
  cases hd : utf8Decode r.content with
  | none =>
    refine ⟨⟨fun _ => rfl, fun _ => ?_⟩, fun cs h => ?_⟩
    · rw [intoGetObjResponse, hd]
    · exact absurd h (by simp)
  | some cs0 =>
    refine ⟨⟨fun h => ?_, fun h => ?_⟩, fun cs h => ?_⟩
    · rw [intoGetObjResponse, hd] at h; cases h
    · exact absurd h (by simp)
    · obtain rfl : cs0 = cs := by injection h
      rw [intoGetObjResponse, hd]

theorem c9_utf8_panic_iff_witness :
    utf8Decode [0x41, 0xC3, 0xA9] = some [0x41, 0xE9] ∧
    intoGetObjResponse ⟨[0x41, 0xC3, 0xA9], [("k", "v")]⟩ =
      .ok { content := [0x41, 0xE9], meta := [("k", "v")] } :=
  ⟨by decide,
    (c9_utf8_panic_iff ⟨[0x41, 0xC3, 0xA9], [("k", "v")]⟩).2 [0x41, 0xE9] (by decide)⟩

theorem del_multi_ok {ε : Type} (del : String → Except ε Unit) :
    ∀ names : List String,
    (del_multi del names = .ok () ↔ ∀ n ∈ names, del n = .ok ()) := by
  intro names
  induction names with
  | nil => simp [del_multi]
  | cons n t ih =>
    cases hd : del n with
    | error e => simp [del_multi, hd]
    | ok u =>
      cases u
      simp [del_multi, hd, ih]

theorem del_multi_fail {ε : Type} (del : String → Except ε Unit) :
    ∀ (pre : List String) (x : String) (post : List String) (e : ε),
    (∀ n ∈ pre, del n = .ok ()) → del x = .error e →
    del_multi del (pre ++ x :: post) = .error e ∧
    del_attempts del (pre ++ x :: post) = pre ++ [x] := by
  intro pre
  induction pre with
  | nil =>
    intro x post e _ hx
    constructor
    · simp [del_multi, hx]
    · simp [del_attempts, hx]
  | cons p pre' ih =>
    intro x post e hpre hx
    have hp : del p = .ok () := hpre p (by simp)
    have hpre' : ∀ n ∈ pre', del n = .ok () := fun n hn => hpre n (by simp [hn])
    obtain ⟨h1, h2⟩ := ih x post e hpre' hx
    constructor
    · simp [del_multi, hp, h1]
    · simp [del_attempts, hp, h2]

/-- C10: `del_multi` deletes in input order and is fail-fast rather than
atomic — it returns Ok exactly when the per-object delete succeeds on
every name, and when the deletes succeed on a leading segment and fail
on the next name, it returns that very error and the names it attempted
are exactly the leading segment plus the failing name: later names are
never attempted and earlier deletions are not undone. -/
theorem c10_del_multi_spec {ε : Type} (del : String → Except ε Unit)
    (names : List String) :
    (del_multi del names = .ok () ↔ ∀ n ∈ names, del n = .ok ()) ∧
    (∀ (pre : List String) (x : String) (post : List String) (e : ε),
      names = pre ++ x :: post →
      (∀ n ∈ pre, del n = .ok ()) → del x = .error e →
      del_multi del names = .error e ∧ del_attempts del names = pre ++ [x]) :=
  ⟨del_multi_ok del names,
    fun pre x post e hn hpre hx => hn ▸ del_multi_fail del pre x post e hpre hx⟩

theorem lowerStr_append (a b : String) : lowerStr (a ++ b) = lowerStr a ++ lowerStr b := by
  apply strData_inj
  simp [lowerStr, strData_append]

theorem lowerStr_metaPfx : lowerStr metaPfx = metaPfx := by decide

theorem metaName_eq (k : String) : metaName k = metaPfx ++ lowerStr k := by
  rw [metaName, lowerStr_append, lowerStr_metaPfx]

theorem str_append_left_inj {a b c : String} (h : a ++ b = a ++ c) : b = c := by
  apply strData_inj
  have := congrArg String.data h
  rw [strData_append, strData_append] at this
  exact List.append_cancel_left this

theorem hmInsert_fresh {m : List (String × String)} {k v : String}
    (h : ∀ q ∈ m, q.1 ≠ k) : hmInsert m k v = m ++ [(k, v)] := by
  rw [hmInsert, if_neg]
  simp only [List.any_eq_true, not_exists, not_and]
  intro q hq
  simpa using h q hq

theorem tmhAux_ok :
    ∀ (meta : List (String × String)) (acc : List (String × String)),
    (∀ p ∈ meta, validHeaderName (metaPfx ++ p.1) = true ∧ validHeaderValue p.2 = true) →
    (∀ p ∈ meta, ∀ q ∈ acc, q.1 ≠ metaName p.1) →
    (meta.map (fun p => metaName p.1)).Nodup →
    tmhAux acc meta = .ok (acc ++ meta.map (fun p => (metaName p.1, p.2))) := by
  intro meta
  induction meta with
  | nil => intro acc _ _ _; simp [tmhAux]
  | cons pk t ih =>
    intro acc hvalid hfresh hnd
    obtain ⟨k, v⟩ := pk
    have hv := hvalid (k, v) (by simp)
    have hfk : ∀ q ∈ acc, q.1 ≠ metaName k :=
      fun q hq => hfresh (k, v) (by simp) q hq
    rw [tmhAux, if_pos (by simp [hv.1, hv.2])]
    rw [show lowerStr (metaPfx ++ k) = metaName k from rfl]
    rw [hmInsert_fresh hfk]
    have hnd' : (t.map (fun p => metaName p.1)).Nodup := by
      simpa using hnd.of_cons
    have hnd2 : (metaName k :: t.map (fun p => metaName p.1)).Nodup := by
      simpa using hnd
    have hhead : ∀ p ∈ t, metaName p.1 ≠ metaName k := by
      intro p hp heq
      exact (List.nodup_cons.mp hnd2).1 (List.mem_map.mpr ⟨p, hp, heq⟩)
    have hfresh' : ∀ p ∈ t, ∀ q ∈ acc ++ [(metaName k, v)], q.1 ≠ metaName p.1 := by
      intro p hp q hq
      rcases List.mem_append.mp hq with hq | hq
      · exact hfresh p (by simp [hp]) q hq
      · simp only [List.mem_singleton] at hq
        subst hq
        exact fun hc => hhead p hp hc.symm
    have hvalid' : ∀ p ∈ t, validHeaderName (metaPfx ++ p.1) = true ∧
        validHeaderValue p.2 = true :=
      fun p hp => hvalid p (by simp [hp])
    rw [ih (acc ++ [(metaName k, v)]) hvalid' hfresh' hnd']
    simp

theorem strStartsWith_metaName (k : String) :
    strStartsWith (metaPfx ++ k) metaPfx = true := by
  rw [strStartsWith, strData_append]
  exact List.isPrefixOf_iff_prefix.mpr (List.prefix_append _ _)

theorem trimMetaAux_stop (fuel : Nat) (l : List Char)
    (h : ¬ metaPfx.data.isPrefixOf l = true) : trimMetaAux fuel l = l := by
  cases fuel with
  | zero => rfl
  | succ m => simp [trimMetaAux, h]

theorem trimMetaAux_strip (fuel : Nat) (k : List Char)
    (h : ¬ metaPfx.data.isPrefixOf k = true) :
    trimMetaAux (fuel + 1) (metaPfx.data ++ k) = k := by
  rw [trimMetaAux, if_pos (List.isPrefixOf_iff_prefix.mpr (List.prefix_append _ _)),
    List.drop_left]
  exact trimMetaAux_stop fuel k h

theorem trimMeta_strip {k : String} (h : ¬ metaPfx.data.isPrefixOf k.data = true) :
    trimMeta (metaPfx ++ k) = k := by
  apply strData_inj
  show trimMetaAux (metaPfx ++ k).data.length (metaPfx ++ k).data = k.data
  rw [strData_append, List.length_append,
    show metaPfx.data.length = 11 from by decide,
    show (11 : Nat) + k.data.length = 10 + k.data.length + 1 from by omega]
  exact trimMetaAux_strip _ _ h

theorem head_meta_decode_encode :
    ∀ meta : List (String × String),
    (∀ p ∈ meta, ¬ metaPfx.data.isPrefixOf (lowerStr p.1).data = true) →
    head_meta_decode (meta.map (fun p => (metaName p.1, p.2))) =
      meta.map (fun p => (lowerStr p.1, p.2)) := by
  intro meta
  induction meta with
  | nil => intro _; rfl
  | cons pk t ih =>
    intro h
    obtain ⟨k, v⟩ := pk
    have hk := h (k, v) (by simp)
    have ht : ∀ p ∈ t, ¬ metaPfx.data.isPrefixOf (lowerStr p.1).data = true :=
      fun p hp => h p (by simp [hp])
    simp only [List.map_cons, head_meta_decode, List.filter_cons]
    rw [if_pos (by rw [metaName_eq]; exact strStartsWith_metaName (lowerStr k))]
    have := ih ht
    simp only [head_meta_decode] at this
    simp only [List.map_cons, this]
    rw [metaName_eq, trimMeta_strip hk]

/-- C8 counterexample: a metadata key that itself starts with
`x-oss-meta-` does not round-trip — the encoder stores it under
`x-oss-meta-x-oss-meta-a`, and the decoder's `trim_start_matches`
removes the marker repeatedly, so the key comes back as `a`, which
differs from the original key even after case-folding. -/
theorem c8_meta_roundtrip_fails_on_prefixed_key :
    to_meta_headers [("x-oss-meta-a", "v")] = .ok [("x-oss-meta-x-oss-meta-a", "v")] ∧
    head_meta_decode [("x-oss-meta-x-oss-meta-a", "v")] = [("a", "v")] ∧
    [(("a" : String), ("v" : String))] ≠ [("x-oss-meta-a", "v")] ∧
    lowerStr "x-oss-meta-a" = "x-oss-meta-a" := by
  decide

/-- C8 (amended): for a metadata map whose keys and values are valid
header bytes, whose keys stay distinct after ASCII case-folding, and
none of whose case-folded keys itself starts with `x-oss-meta-`,
encoding with `to_meta_headers` and then decoding by selecting the
`x-oss-meta-` response headers and stripping that marker (as `head`
does) yields the original map with its keys case-folded.  A key that
starts with the marker is excluded: the decoder strips the marker
repeatedly and such a key does not round-trip. -/
theorem c8_meta_roundtrip_amended (meta : List (String × String))
    (hvalid : ∀ p ∈ meta,
      validHeaderName (metaPfx ++ p.1) = true ∧ validHeaderValue p.2 = true)
    (hnd : (meta.map (fun p => lowerStr p.1)).Nodup)
    (hnp : ∀ p ∈ meta, ¬ metaPfx.data.isPrefixOf (lowerStr p.1).data = true) :
    ∃ hs, to_meta_headers meta = .ok hs ∧
      head_meta_decode hs = meta.map (fun p => (lowerStr p.1, p.2)) := by
  refine ⟨meta.map (fun p => (metaName p.1, p.2)), ?_, head_meta_decode_encode meta hnp⟩
  have hndm : (meta.map (fun p => metaName p.1)).Nodup := by
    have : (meta.map (fun p => metaName p.1)) =
        (meta.map (fun p => lowerStr p.1)).map (fun s => metaPfx ++ s) := by
      simp only [List.map_map]
      apply List.map_congr_left
      intro p _
      simp [Function.comp, metaName_eq]
    rw [this]
    exact hnd.map (fun _ _ h => str_append_left_inj h)
  exact tmhAux_ok meta [] hvalid (by simp) hndm

theorem c8_meta_roundtrip_amended_witness :
    (∀ p ∈ [(("Alpha" : String), ("v1" : String)), ("beta", "v2")],
      validHeaderName (metaPfx ++ p.1) = true ∧ validHeaderValue p.2 = true) ∧
    (([(("Alpha" : String), ("v1" : String)), ("beta", "v2")].map
      (fun p => lowerStr p.1)).Nodup) ∧
    (∀ p ∈ [(("Alpha" : String), ("v1" : String)), ("beta", "v2")],
      ¬ metaPfx.data.isPrefixOf (lowerStr p.1).data = true) ∧
    ∃ hs, to_meta_headers [(("Alpha" : String), ("v1" : String)), ("beta", "v2")] =
        .ok hs ∧
      head_meta_decode hs =
        [(("Alpha" : String), ("v1" : String)), ("beta", "v2")].map
          (fun p => (lowerStr p.1, p.2)) :=
  ⟨by decide, by decide, by decide,
    c8_meta_roundtrip_amended _ (by decide) (by decide) (by decide)⟩

theorem c10_del_multi_spec_witness :
    ((["a", "b", "c"] : List String) = ["a"] ++ "b" :: ["c"]) ∧
    (∀ n ∈ (["a"] : List String), delOracle n = .ok ()) ∧
    delOracle "b" = .error .readerErr ∧
    (del_multi delOracle ["a", "b", "c"] = .error .readerErr ∧
      del_attempts delOracle ["a", "b", "c"] = ["a"] ++ ["b"]) :=
  ⟨by decide, by decide, by decide,
    (c10_del_multi_spec delOracle ["a", "b", "c"]).2 ["a"] "b" ["c"] .readerErr
      (by decide) (by decide) (by decide)⟩

end OssSdk
